import Mathlib

/-!
Verification development for the dynamic e-pharmacophore batch pipeline
orchestrator (`run_dynamic_epharmacophore.py`).

The script is embedded shallowly: filenames are lists of characters,
external stage programs are abstracted by their observable outcome
(exit status, artifact production), and the top-level control flow
(frame selection, batch loop, per-frame pipeline, artifact polling,
final collection) is translated into executable Lean functions.
-/

namespace DynEph

/-- A filename stem (the part of a basename before the extension),
as the script manipulates it: a string, modelled as a list of characters. -/
abbrev Stem := List Char

/-- A file path / file name inside the shared working directory. -/
abbrev Path := List Char

/-! ## Python `int()` parsing (used by the sort key and the range filter)

`all_maes` sorts the globbed files with `key=int(stem)` and the selection
filter re-parses the stem.  We model CPython's `int(str)` on ASCII input:
surrounding whitespace is stripped, an optional single sign is allowed,
and the body is a nonempty digit sequence in which single underscores may
appear strictly between digits.  An unparsable stem raises `ValueError`,
modelled as `none`. -/

/-- Checks the tail of an integer literal body, assuming the previous
character was a digit: digits may continue, and an underscore must be
followed by a digit. -/
def intBodyOk : List Char → Bool
  | [] => true
  | c :: rest =>
    if c.isDigit then intBodyOk rest
    else if c = '_' then
      match rest with
      | [] => false
      | d :: rest₂ => d.isDigit && intBodyOk rest₂
    else false

/-- Numeric value of a digit-and-underscore body (underscores ignored). -/
def digitsValue (l : List Char) : Nat :=
  l.foldl (fun a c => if c = '_' then a else a * 10 + (c.toNat - '0'.toNat)) 0

/-- Strip leading and trailing whitespace, as Python `int()` does. -/
def stripWs (l : List Char) : List Char :=
  ((l.dropWhile Char.isWhitespace).reverse.dropWhile Char.isWhitespace).reverse

/-- Parse a whitespace-stripped integer literal. -/
def pyIntCore : List Char → Option Int
  | [] => none
  | '+' :: rest =>
    match rest with
    | [] => none
    | d :: t => if d.isDigit && intBodyOk t then some (digitsValue (d :: t) : Nat) else none
  | '-' :: rest =>
    match rest with
    | [] => none
    | d :: t => if d.isDigit && intBodyOk t then some (-(digitsValue (d :: t) : Nat)) else none
  | d :: t => if d.isDigit && intBodyOk t then some (digitsValue (d :: t) : Nat) else none

/-- Python `int(stem)`: `none` models an uncaught `ValueError`. -/
def pyInt (s : Stem) : Option Int := pyIntCore (stripWs s)

/-! ## Frame enumeration and selection (script lines 73–78)

`all_maes = sorted(glob(...), key=lambda x: int(stem x))` evaluates the
key on every globbed file (any unparsable stem aborts the program) and
sorts ascending by the parsed value with a stable sort.
`selected_maes` filters by `START <= i <= END and (i - START) % STEP == 0`,
where the `and` short-circuits, so `% 0` only raises when some index is
inside the range. -/

/-- Evaluate the sort key `int(stem)` on every globbed stem, pairing each
stem with its parsed index; `none` models the `ValueError` abort. -/
def decorate : List Stem → Option (List (Stem × Int))
  | [] => some []
  | s :: rest =>
    match pyInt s with
    | none => none
    | some v => (decorate rest).map ((s, v) :: ·)

/-- Comparison used by the sort: ascending by parsed integer index. -/
def idxLe (a b : Stem × Int) : Prop := a.2 ≤ b.2

instance : DecidableRel idxLe := fun a b => Int.decLe a.2 b.2

instance : IsTotal (Stem × Int) idxLe := ⟨fun a b => Int.le_total a.2 b.2⟩

instance : IsTrans (Stem × Int) idxLe := ⟨fun _ _ _ h₁ h₂ => le_trans h₁ h₂⟩

/-- `all_maes`: every stem's sort key is evaluated, then the files are
sorted ascending by parsed integer index (Python's `sorted` is a stable
comparison sort; we model it with insertion sort, using only that the
result is sorted and a permutation of the input). -/
def all_maes (stems : List Stem) : Option (List (Stem × Int)) :=
  (decorate stems).map (List.insertionSort idxLe)

/-- Python `a % b`: floor-division remainder; `b = 0` raises
`ZeroDivisionError`, modelled as `none`. -/
def pyMod (a b : Int) : Option Int :=
  if b = 0 then none else some (a - b * (Int.fdiv a b))

/-- The filter of line 74 for one file, with Python's short-circuit `and`:
the modulus is evaluated only when the index lies inside the range. -/
def frameKeep (start stop step v : Int) : Option Bool :=
  if start ≤ v ∧ v ≤ stop then (pyMod (v - start) step).map (fun m => m == 0)
  else some false

/-- `selected_maes`: the list comprehension over the sorted files;
`none` models the uncaught `ZeroDivisionError` when `step = 0` and some
index lies inside the range. -/
def selectFrames (start stop step : Int) : List (Stem × Int) → Option (List (Stem × Int))
  | [] => some []
  | p :: rest =>
    match frameKeep start stop step p.2 with
    | none => none
    | some true => (selectFrames start stop step rest).map (p :: ·)
    | some false => selectFrames start stop step rest

/-- Definition following the specification's words, for comparison with
`selectFrames`: the set `{i ∈ available : start ≤ i ≤ end ∧ (i − start) mod step = 0}`,
sorted ascending. -/
def specSelection (start stop step : Int) (avail : List Int) : List Int :=
  List.insertionSort (fun a b : Int => a ≤ b)
    (avail.filter (fun i => decide (start ≤ i ∧ i ≤ stop ∧ (i - start) % step = 0)))

/-! ## Per-frame working-directory filenames

Every intermediate filename built by `process_frame` is the frame's stem
followed by a fixed suffix (f-strings of lines 88–153). -/

/-- `"{stem}.mae"` — the working copy of the input frame. -/
def maeFile (st : Stem) : Path := st ++ ".mae".toList

/-- `"{stem}_prepared.mae"` — the renamed PrepWizard output. -/
def preparedFile (st : Stem) : Path := st ++ "_prepared.mae".toList

/-- `"{stem}_prepared-out_lig.mae"` — the split ligand. -/
def ligFile (st : Stem) : Path := st ++ "_prepared-out_lig.mae".toList

/-- `"{stem}_prepared-out_recep.mae"` — the split receptor. -/
def recFile (st : Stem) : Path := st ++ "_prepared-out_recep.mae".toList

/-- `"{stem}_grid_input.csv"` — the grid-generation input table. -/
def csvFile (st : Stem) : Path := st ++ "_grid_input.csv".toList

/-- `"{stem}_grid.zip"` — the frame-local copy of the polled grid artifact. -/
def gridZipFile (st : Stem) : Path := st ++ "_grid.zip".toList

/-- Modelled from the spec: the asynchronous hypothesis-generation stage
(`epharmacophores ... -j "{stem}_hypo"`) is an external program whose
artifact production is not in the script's source; per the specification
it deposits exactly one terminal artifact with the fixed `.phypo`
extension, named from the frame's job name, on success, and nothing on
failure. -/
def phypoFile (st : Stem) : Path := st ++ "_hypo.phypo".toList

/-- All working-directory filenames a frame's pipeline writes (or asks the
external stage programs to write), each namespaced by the frame's stem:
the working copy, the two PrepWizard output names, the three `protassign`
by-products removed by the cleanup `rm`, the split ligand and receptor,
the grid input table, the local grid-zip copy, and the terminal
hypothesis artifact. -/
def frameSuffixes : List (List Char) :=
  [".mae".toList, "_pH7.4_prepared.mae".toList, "_prepared.mae".toList,
   "-protassign.log".toList, "-protassign.mae".toList, "-protassign-out.mae".toList,
   "_prepared-out_lig.mae".toList, "_prepared-out_recep.mae".toList,
   "_grid_input.csv".toList, "_grid.zip".toList, "_hypo.phypo".toList]

/-- The set of paths written in the shared working directory by (or on
behalf of) the frame with the given stem. -/
def frameWrites (st : Stem) : List Path := frameSuffixes.map (fun suf => st ++ suf)

/-! ## The artifact waiter (script lines 142–151)

`glob.glob("*.zip")` matched against the fixed substring `"gridgen"`,
sorted by modification time, newest first, polled in an unbounded loop. -/

/-- A directory entry: a file name and its modification time. -/
structure FileEntry where
  name : Path
  mtime : Nat
deriving DecidableEq

/-- Sorting relation of line 144: by modification time, newest first
(`key=os.path.getmtime, reverse=True`). -/
def newerFirst (a b : FileEntry) : Prop := b.mtime ≤ a.mtime

instance : DecidableRel newerFirst := fun a b => Nat.decLe b.mtime a.mtime

instance : IsTotal FileEntry newerFirst := ⟨fun a b => Nat.le_total b.mtime a.mtime⟩

instance : IsTrans FileEntry newerFirst := ⟨fun _ _ _ h₁ h₂ => le_trans h₂ h₁⟩

/-- `glob.glob("*.zip")` membership: a non-hidden name ending in `.zip`. -/
def globZip (p : Path) : Bool :=
  (match p with
   | [] => false
   | c :: _ => c ≠ '.') && (".zip".toList.isSuffixOf p)

/-- `"gridgen" in z` — fixed-substring containment. -/
def containsGridgen (p : Path) : Bool := decide ("gridgen".toList <:+: p)

/-- One poll iteration: glob the zips, sort newest first, take the first
whose name contains `"gridgen"`. -/
def pollOnce (files : List FileEntry) : Option FileEntry :=
  (List.insertionSort newerFirst (files.filter (fun f => globZip f.name))).find?
    (fun f => containsGridgen f.name)

/-- A candidate for the waiter: a globbed zip whose name contains the
pattern. -/
def zipCandidate (f : FileEntry) : Bool := globZip f.name && containsGridgen f.name

/-- The polling loop `while not actual_zip`, with explicit fuel standing
for the number of iterations observed: the real loop is unbounded, so it
returns iff some finite number of iterations suffices. -/
def waitLoop (fuel : Nat) (files : List FileEntry) : Option FileEntry :=
  match fuel with
  | 0 => none
  | n + 1 =>
    match pollOnce files with
    | some z => some z
    | none => waitLoop n files

/-- The frame-independent predicate describing which working-directory
paths a frame's waiter matches (and may copy): line 142's glob pattern
plus line 146's substring test — not namespaced by any frame identity. -/
def zipPollMatch (p : Path) : Bool := globZip p && containsGridgen p

/-- Paths the pipeline of the frame with stem `st` reads, matches or
writes in the shared working directory: its namespaced write set plus
everything its artifact waiter matches. -/
def frameTouches (st : Stem) (p : Path) : Bool :=
  decide (p ∈ frameWrites st) || zipPollMatch p

/-! ## The per-frame pipeline (`process_frame`, script lines 83–173)

Each external stage program is abstracted by its observable outcome;
the fixed stage order and the early `return` on each failure are
translated directly. -/

/-- The five pipeline stages, in their fixed order. -/
inductive Stage
  | prepare
  | split
  | geometryDerive
  | gridGenerate
  | hypothesisGenerate
deriving DecidableEq

/-- Position of a stage in the fixed order. -/
def stageIdx : Stage → Nat
  | .prepare => 0
  | .split => 1
  | .geometryDerive => 2
  | .gridGenerate => 3
  | .hypothesisGenerate => 4

/-- Abstraction of the environment one frame's pipeline runs against:
the exit status of each external stage program, the readability and atom
count of the split ligand, and whether the asynchronous grid job's zip
artifact ever appears in the working directory. -/
structure FrameEnv where
  prepOk : Bool
  splitLigOk : Bool
  splitRecOk : Bool
  readOk : Bool
  ligAtoms : Nat
  gridOk : Bool
  zipAppears : Bool
  hypoOk : Bool
deriving DecidableEq

/-- Terminal behaviour of one frame's pipeline: all stages succeeded,
the pipeline halted at a failing stage, or the waiter polls forever. -/
inductive Outcome
  | done
  | failed (s : Stage)
  | blocked
deriving DecidableEq

/-- What one call of `process_frame` does: the stages it invoked, its
terminal behaviour, and the namespaced files left in the working
directory (the `protassign` by-products are deleted again on the success
path and PrepWizard's temporary name is renamed away, so neither
appears). -/
structure FrameRun where
  invoked : List Stage
  outcome : Outcome
  files : List Path
deriving DecidableEq

/-- `process_frame` (lines 83–173): copy the input, then run
PrepWizard → split → centroid geometry → grid generation → wait for the
grid zip → hypothesis generation, returning (halting the frame) at the
first failure.  The centroid computation fails exactly when the ligand
cannot be read or has zero atoms (`sum/len` raises on an empty list and
the surrounding `except` returns). -/
def process_frame (st : Stem) (e : FrameEnv) : FrameRun :=
  if !e.prepOk then
    ⟨[.prepare], .failed .prepare, [maeFile st]⟩
  else if !(e.splitLigOk && e.splitRecOk) then
    ⟨[.prepare, .split], .failed .split, [maeFile st, preparedFile st]⟩
  else if !e.readOk || e.ligAtoms == 0 then
    ⟨[.prepare, .split, .geometryDerive], .failed .geometryDerive,
     [maeFile st, preparedFile st, ligFile st, recFile st]⟩
  else if !e.gridOk then
    ⟨[.prepare, .split, .geometryDerive, .gridGenerate], .failed .gridGenerate,
     [maeFile st, preparedFile st, ligFile st, recFile st, csvFile st]⟩
  else if !e.zipAppears then
    ⟨[.prepare, .split, .geometryDerive, .gridGenerate], .blocked,
     [maeFile st, preparedFile st, ligFile st, recFile st, csvFile st]⟩
  else if !e.hypoOk then
    ⟨[.prepare, .split, .geometryDerive, .gridGenerate, .hypothesisGenerate],
     .failed .hypothesisGenerate,
     [maeFile st, preparedFile st, ligFile st, recFile st, csvFile st, gridZipFile st]⟩
  else
    ⟨[.prepare, .split, .geometryDerive, .gridGenerate, .hypothesisGenerate], .done,
     [maeFile st, preparedFile st, ligFile st, recFile st, csvFile st, gridZipFile st,
      phypoFile st]⟩

/-! ## The batch loop (script lines 178–196) -/

/-- Observable actions of the batch loop: creating a worker pool of a
given width and mapping `process_frame` over a batch, and the per-batch
job-backend cleanup call. -/
inductive Event
  | runBatch (width : Nat) (frames : List Stem)
  | cleanup
deriving DecidableEq

/-- The pool width of line 184: `min(max(1, USER_NCORES // 2), len(batch))`. -/
def poolWidth (ncores batchLen : Nat) : Nat := min (max 1 (ncores / 2)) batchLen

/-- The batch loop: slice off `bsize` frames, run them through a fresh
pool (the whole batch reaches a terminal state before the loop goes on),
clean up the job backend, repeat.  A frame whose waiter never finds a
zip blocks its `pool.map` forever: the cleanup of that batch and all
later batches never happen, flagged by the `Bool` component.  `fuel`
bounds the recursion and is irrelevant whenever `fuel ≥ frames.length`
and `bsize ≥ 1`. -/
def runBatchesF (fuel ncores bsize : Nat) (frames : List (Stem × FrameEnv)) :
    List Event × List (Stem × Outcome) × Bool :=
  match fuel, frames with
  | 0, _ => ([], [], false)
  | _, [] => ([], [], false)
  | n + 1, f :: fs =>
    let batch := (f :: fs).take bsize
    let rs := batch.map (fun p => (p.1, (process_frame p.1 p.2).outcome))
    let ev := Event.runBatch (poolWidth ncores batch.length) (batch.map (·.1))
    if rs.any (fun r => decide (r.2 = .blocked)) then
      ([ev], rs, true)
    else
      let rest := runBatchesF n ncores bsize ((f :: fs).drop bsize)
      (ev :: .cleanup :: rest.1, rs ++ rest.2.1, rest.2.2)

/-- Consecutive slices of size `bsize` (the `range(0, n, bsize)` slicing
of lines 180–181), with fuel mirroring `runBatchesF`; the fuel is
irrelevant whenever `fuel ≥ l.length` and `bsize ≥ 1`. -/
def chunksF (fuel bsize : Nat) : List α → List (List α)
  | [] => []
  | x :: xs =>
    match fuel with
    | 0 => []
    | n + 1 => (x :: xs.take (bsize - 1)) :: chunksF n bsize (xs.drop (bsize - 1))

/-- Consecutive slices of size `bsize` of a list. -/
def chunks (bsize : Nat) (l : List α) : List (List α) := chunksF l.length bsize l

/-- The batches recorded in an event trace, in order. -/
def eventBatches (evs : List Event) : List (List Stem) :=
  evs.filterMap (fun e => match e with | .runBatch _ fs => some fs | .cleanup => none)

/-- Number of job-backend cleanup calls in an event trace. -/
def cleanupCount (evs : List Event) : Nat :=
  evs.countP (fun e => match e with | .cleanup => true | _ => false)

/-! ## Final collection (script lines 201–202) -/

/-- `glob(PROCESSED_DIR/"*.phypo")` membership: fixed-extension match. -/
def isPhypo (p : Path) : Bool := decide (".phypo".toList <:+ p)

/-- `shutil.copy` into the collection directory, preserving the
basename: a name already present is overwritten in place (the directory,
viewed as its list of entries, gains no duplicate), a new name is
appended. -/
def copyInto (coll : List Path) (p : Path) : List Path :=
  if p ∈ coll then coll else coll ++ [p]

/-- The final collection loop: copy every `.phypo` file of the working
directory into the hypothesis collection directory. -/
def collectHypos (work coll : List Path) : List Path :=
  (work.filter isPhypo).foldl copyInto coll

/-! ## The whole program run -/

/-- How a run of the script ends. -/
inductive ExitKind
  | schrodMissing
  | parseCrash
  | stepZeroCrash
  | batchZeroCrash
  | noFrames
  | hung
  | completed
deriving DecidableEq

/-- Observable result of a run: how it ended, the batch-loop event
trace, the per-frame terminal outcomes, and the contents of the
hypothesis collection directory. -/
structure ProgResult where
  exit : ExitKind
  events : List Event
  outcomes : List (Stem × Outcome)
  collected : List Path
deriving DecidableEq

/-- Top-level control flow of the script: the toolsuite-location check
(lines 60–62), frame enumeration and selection (73–74), the
empty-selection exit (76–78), the batch loop (178–196) and the final
collection (201–202), over a clean working directory whose final
contents are the files produced by the frame pipelines. -/
def runProgram (schrodOk : Bool) (start stop step : Int) (ncores bsize : Nat)
    (stems : List Stem) (env : Stem → FrameEnv) : ProgResult :=
  if !schrodOk then ⟨.schrodMissing, [], [], []⟩ else
  match all_maes stems with
  | none => ⟨.parseCrash, [], [], []⟩
  | some pairs =>
    match selectFrames start stop step pairs with
    | none => ⟨.stepZeroCrash, [], [], []⟩
    | some [] => ⟨.noFrames, [], [], []⟩
    | some sel =>
      if bsize = 0 then ⟨.batchZeroCrash, [], [], []⟩ else
      let frames := sel.map (fun p => (p.1, env p.1))
      let r := runBatchesF frames.length ncores bsize frames
      if r.2.2 then ⟨.hung, r.1, r.2.1, []⟩
      else
        let work := frames.flatMap (fun p => (process_frame p.1 p.2).files)
        ⟨.completed, r.1, r.2.1, collectHypos work []⟩

/-! ## Collector lemmas -/

theorem mem_foldl_copyInto_of_mem {x : Path} :
    ∀ (l : List Path) (acc : List Path), x ∈ acc → x ∈ List.foldl copyInto acc l := by
  intro l
  induction l with
  | nil => intro acc h; simpa using h
  | cons y ys ih =>
    intro acc h
    refine ih (copyInto acc y) ?_
    unfold copyInto
    split
    · exact h
    · exact List.mem_append_left _ h

theorem mem_foldl_copyInto_self {x : Path} :
    ∀ (l : List Path) (acc : List Path), x ∈ l → x ∈ List.foldl copyInto acc l := by
  intro l
  induction l with
  | nil => intro acc h; simp at h
  | cons y ys ih =>
    intro acc h
    simp only [List.foldl_cons]
    rcases List.mem_cons.mp h with rfl | h
    · refine mem_foldl_copyInto_of_mem _ _ ?_
      unfold copyInto
      split
      · assumption
      · exact List.mem_append_right _ (List.mem_singleton.mpr rfl)
    · exact ih _ h

theorem foldl_copyInto_of_all_mem :
    ∀ (l : List Path) (acc : List Path), (∀ x ∈ l, x ∈ acc) → List.foldl copyInto acc l = acc := by
  intro l
  induction l with
  | nil => intro acc _; rfl
  | cons y ys ih =>
    intro acc h
    have hy : copyInto acc y = acc := by
      unfold copyInto
      rw [if_pos (h y (List.mem_cons_self y ys))]
    simp only [List.foldl_cons, hy]
    exact ih acc (fun x hx => h x (List.mem_cons_of_mem _ hx))

theorem foldl_copyInto_of_disjoint :
    ∀ (l : List Path) (acc : List Path), l.Nodup → (∀ x ∈ l, x ∉ acc) →
      List.foldl copyInto acc l = acc ++ l := by
  intro l
  induction l with
  | nil => intro acc _ _; simp
  | cons y ys ih =>
    intro acc hnd hdisj
    have hy : copyInto acc y = acc ++ [y] := by
      unfold copyInto
      rw [if_neg (hdisj y (List.mem_cons_self y ys))]
    simp only [List.foldl_cons, hy]
    rw [ih (acc ++ [y]) (List.Nodup.of_cons hnd)]
    · simp
    · intro x hx
      simp only [List.mem_append, List.mem_singleton]
      rintro (hacc | rfl)
      · exact hdisj x (List.mem_cons_of_mem _ hx) hacc
      · exact (List.nodup_cons.mp hnd).1 hx

/-- **C9.** Running the result-collection step a second time against an
unchanged working directory and the already-populated collection
directory leaves the collection contents identical: each terminal
artifact is overwritten with itself under the same name, and no
duplicate entries are created. -/
theorem collect_idempotent (work coll : List Path) :
    collectHypos work (collectHypos work coll) = collectHypos work coll := by
  unfold collectHypos
  exact foldl_copyInto_of_all_mem _ _
    (fun x hx => mem_foldl_copyInto_self _ _ hx)

/-! ## Early-exit claims -/

/-- **C5.** Whenever the frame selection is empty, the program
terminates with a user-visible error before performing any pipeline
work: no stage is invoked, no batch is processed, no artifact is
collected. -/
theorem empty_selection_exits (start stop step : Int) (ncores bsize : Nat)
    (stems : List Stem) (env : Stem → FrameEnv) (pairs : List (Stem × Int))
    (hall : all_maes stems = some pairs)
    (hempty : selectFrames start stop step pairs = some []) :
    runProgram true start stop step ncores bsize stems env =
      ⟨.noFrames, [], [], []⟩ := by
  unfold runProgram
  rw [hall]
  simp only [Bool.not_true, Bool.false_eq_true, if_false, hempty]

/-- **C5 witness**: start 1, end 5, step 1, a single available frame `7`
outside the range. -/
theorem empty_selection_exits_witness :
    all_maes [['7']] = some [(['7'], 7)] ∧
    selectFrames 1 5 1 [(['7'], 7)] = some [] ∧
    runProgram true 1 5 1 4 2 [['7']]
      (fun _ => ⟨true, true, true, true, 3, true, true, true⟩) =
      ⟨.noFrames, [], [], []⟩ :=
  ⟨by decide, by decide,
   empty_selection_exits 1 5 1 4 2 [['7']]
     (fun _ => ⟨true, true, true, true, 3, true, true, true⟩)
     [(['7'], 7)] (by decide) (by decide)⟩

theorem decorate_eq_none {stems : List Stem} :
    (∃ s ∈ stems, pyInt s = none) → decorate stems = none := by
  intro ⟨s, hmem, hbad⟩
  induction stems with
  | nil => simp at hmem
  | cons t ts ih =>
    unfold decorate
    rcases List.mem_cons.mp hmem with rfl | hmem
    · rw [hbad]
    · cases hpt : pyInt t
      · rfl
      · rw [ih hmem]; rfl

/-- **C10.** Frame enumeration parses the filename stem of every `.mae`
file as an integer; if any stem is not a valid integer literal, the
program aborts with an uncaught parse error before selecting or
processing any frame. -/
theorem bad_stem_aborts (start stop step : Int) (ncores bsize : Nat)
    (stems : List Stem) (env : Stem → FrameEnv)
    (hbad : ∃ s ∈ stems, pyInt s = none) :
    runProgram true start stop step ncores bsize stems env =
      ⟨.parseCrash, [], [], []⟩ := by
  unfold runProgram all_maes
  rw [decorate_eq_none hbad]
  simp

/-- **C10 witness**: the input directory holds `abc.mae` (and a valid
`1.mae`); enumeration aborts with no work performed. -/
theorem bad_stem_aborts_witness :
    pyInt ['a', 'b', 'c'] = none ∧
    runProgram true 1 5 1 4 2 [['1'], ['a', 'b', 'c']]
      (fun _ => ⟨true, true, true, true, 3, true, true, true⟩) =
      ⟨.parseCrash, [], [], []⟩ :=
  ⟨by decide,
   bad_stem_aborts 1 5 1 4 2 [['1'], ['a', 'b', 'c']]
     (fun _ => ⟨true, true, true, true, 3, true, true, true⟩)
     ⟨['a', 'b', 'c'], by decide, by decide⟩⟩

/-! ## Pipeline lemmas -/

/-- Complete case description of `process_frame`: one disjunct per
terminal branch of the script's early-return chain. -/
theorem process_frame_spec (st : Stem) (e : FrameEnv) :
    process_frame st e = ⟨[.prepare], .failed .prepare, [maeFile st]⟩ ∨
    process_frame st e = ⟨[.prepare, .split], .failed .split, [maeFile st, preparedFile st]⟩ ∨
    process_frame st e = ⟨[.prepare, .split, .geometryDerive], .failed .geometryDerive,
      [maeFile st, preparedFile st, ligFile st, recFile st]⟩ ∨
    process_frame st e = ⟨[.prepare, .split, .geometryDerive, .gridGenerate],
      .failed .gridGenerate,
      [maeFile st, preparedFile st, ligFile st, recFile st, csvFile st]⟩ ∨
    process_frame st e = ⟨[.prepare, .split, .geometryDerive, .gridGenerate], .blocked,
      [maeFile st, preparedFile st, ligFile st, recFile st, csvFile st]⟩ ∨
    process_frame st e = ⟨[.prepare, .split, .geometryDerive, .gridGenerate,
      .hypothesisGenerate], .failed .hypothesisGenerate,
      [maeFile st, preparedFile st, ligFile st, recFile st, csvFile st, gridZipFile st]⟩ ∨
    process_frame st e = ⟨[.prepare, .split, .geometryDerive, .gridGenerate,
      .hypothesisGenerate], .done,
      [maeFile st, preparedFile st, ligFile st, recFile st, csvFile st, gridZipFile st,
       phypoFile st]⟩ := by
  unfold process_frame
  by_cases h1 : (!e.prepOk) = true
  · rw [if_pos h1]; tauto
  rw [if_neg h1]
  by_cases h2 : (!(e.splitLigOk && e.splitRecOk)) = true
  · rw [if_pos h2]; tauto
  rw [if_neg h2]
  by_cases h3 : (!e.readOk || e.ligAtoms == 0) = true
  · rw [if_pos h3]; tauto
  rw [if_neg h3]
  by_cases h4 : (!e.gridOk) = true
  · rw [if_pos h4]; tauto
  rw [if_neg h4]
  by_cases h5 : (!e.zipAppears) = true
  · rw [if_pos h5]; tauto
  rw [if_neg h5]
  by_cases h6 : (!e.hypoOk) = true
  · rw [if_pos h6]; tauto
  rw [if_neg h6]; tauto

/-- A pipeline that fails at stage `k` never invokes a stage past `k`. -/
theorem process_frame_halts (st : Stem) (e : FrameEnv) {k : Stage}
    (h : (process_frame st e).outcome = .failed k) :
    ∀ s ∈ (process_frame st e).invoked, stageIdx s ≤ stageIdx k := by
  rcases process_frame_spec st e with hc | hc | hc | hc | hc | hc | hc <;>
    rw [hc] at h ⊢ <;> simp only [] at h <;>
      (try (injection h with h2; subst h2)) <;>
      first
        | (intro s hs; fin_cases hs <;> decide)
        | exact absurd h (by simp)

/-! ## Batch-loop lemmas -/

/-- Every pool created by the batch loop has the width of line 184:
half the configured core count, at least one, capped by the batch size;
and every batch it is created for is non-empty. -/
theorem runBatchesF_width (ncores bsize : Nat) (hb : 1 ≤ bsize) :
    ∀ (fuel : Nat) (frames : List (Stem × FrameEnv)) (w : Nat) (fs : List Stem),
      Event.runBatch w fs ∈ (runBatchesF fuel ncores bsize frames).1 →
      w = min (max 1 (ncores / 2)) fs.length ∧ fs ≠ [] := by
  intro fuel
  induction fuel with
  | zero => intro frames w fs h; simp [runBatchesF] at h
  | succ n ih =>
    intro frames w fs h
    match frames with
    | [] => simp [runBatchesF] at h
    | f :: fl =>
      rw [runBatchesF] at h
      simp only [] at h
      split at h
      · rcases List.mem_singleton.mp h with heq
        injection heq with hw hfs
        subst hw; subst hfs
        obtain ⟨b', rfl⟩ : ∃ b', bsize = b' + 1 := ⟨bsize - 1, by omega⟩
        refine ⟨?_, by simp⟩
        simp [poolWidth]
      · rcases List.mem_cons.mp h with heq | h
        · injection heq with hw hfs
          subst hw; subst hfs
          obtain ⟨b', rfl⟩ : ∃ b', bsize = b' + 1 := ⟨bsize - 1, by omega⟩
          refine ⟨?_, by simp⟩
          simp [poolWidth]
        · rcases List.mem_cons.mp h with heq | h
          · exact absurd heq (by simp)
          · exact ih _ w fs h

/-- **C4.** For every positive configured core count and every non-empty
batch the loop runs, the worker pool created for that batch has width
exactly `min(max(1, floor(ncores / 2)), batch size)`: half the
configured core count, at least 1, and never more than the batch size. -/
theorem pool_width_formula (ncores bsize fuel : Nat) (hc : 1 ≤ ncores) (hb : 1 ≤ bsize)
    (frames : List (Stem × FrameEnv)) (w : Nat) (fs : List Stem)
    (hmem : Event.runBatch w fs ∈ (runBatchesF fuel ncores bsize frames).1) :
    w = min (max 1 (ncores / 2)) fs.length ∧ 1 ≤ w ∧ w ≤ fs.length := by
  obtain ⟨hw, hne⟩ := runBatchesF_width ncores bsize hb fuel frames w fs hmem
  have hlen : 1 ≤ fs.length := List.length_pos.mpr hne
  refine ⟨hw, ?_, ?_⟩ <;> rw [hw] <;> omega

/-- **C4 witness**: 5 configured cores, batch size 3, two frames in the
batch: the pool width is `min(max(1, 2), 2) = 2`. -/
theorem pool_width_formula_witness :
    Event.runBatch 2 [['1'], ['2']] ∈
      (runBatchesF 2 5 3
        [(['1'], ⟨true, true, true, true, 3, true, true, true⟩),
         (['2'], ⟨false, true, true, true, 3, true, true, true⟩)]).1 ∧
    2 = min (max 1 (5 / 2)) ([['1'], ['2']] : List Stem).length ∧
    1 ≤ 2 ∧ 2 ≤ ([['1'], ['2']] : List Stem).length :=
  ⟨by decide,
   pool_width_formula 5 3 2 (by decide) (by decide)
     [(['1'], ⟨true, true, true, true, 3, true, true, true⟩),
      (['2'], ⟨false, true, true, true, 3, true, true, true⟩)]
     2 [['1'], ['2']] (by decide)⟩

theorem chunksF_fuel_irrel (bsize : Nat) :
    ∀ (fuel₁ fuel₂ : Nat) (l : List α), l.length ≤ fuel₁ → l.length ≤ fuel₂ →
      chunksF fuel₁ bsize l = chunksF fuel₂ bsize l := by
  intro fuel₁
  induction fuel₁ with
  | zero =>
    intro fuel₂ l h₁ _
    have : l = [] := List.eq_nil_of_length_eq_zero (by omega)
    subst this
    cases fuel₂ <;> rfl
  | succ n ih =>
    intro fuel₂ l h₁ h₂
    match l with
    | [] => cases fuel₂ <;> rfl
    | x :: xs =>
      match fuel₂ with
      | m + 1 =>
        simp only [chunksF]
        congr 1
        refine ih m _ ?_ ?_ <;>
          simp only [List.length_drop] <;>
          simp only [List.length_cons] at h₁ h₂ <;> omega

theorem chunks_cons (b' : Nat) (x : α) (xs : List α) :
    chunks (b' + 1) (x :: xs) = (x :: xs.take b') :: chunks (b' + 1) (xs.drop b') := by
  unfold chunks
  simp only [List.length_cons, chunksF, Nat.add_sub_cancel]
  congr 1
  refine chunksF_fuel_irrel _ _ _ _ ?_ ?_ <;> simp only [List.length_drop] <;> omega

/-- Under a positive batch size and no blocked frame, the batch loop
runs every batch to completion: the event trace is one pool run and one
cleanup per consecutive slice, every frame's recorded outcome is its own
pipeline's terminal state, and the loop does not hang. -/
theorem runBatchesF_eq (ncores bsize : Nat) (hb : 1 ≤ bsize) :
    ∀ (fuel : Nat) (frames : List (Stem × FrameEnv)),
      frames.length ≤ fuel →
      (∀ p ∈ frames, (process_frame p.1 p.2).outcome ≠ .blocked) →
      runBatchesF fuel ncores bsize frames =
        ((chunks bsize frames).flatMap
          (fun c => [Event.runBatch (poolWidth ncores c.length) (c.map (·.1)),
                     Event.cleanup]),
         frames.map (fun p => (p.1, (process_frame p.1 p.2).outcome)),
         false) := by
  intro fuel
  induction fuel with
  | zero =>
    intro frames hlen _
    have : frames = [] := List.eq_nil_of_length_eq_zero (by omega)
    subst this
    rfl
  | succ n ih =>
    intro frames hlen hterm
    match frames with
    | [] => rfl
    | f :: fs =>
      obtain ⟨b', rfl⟩ : ∃ b', bsize = b' + 1 := ⟨bsize - 1, by omega⟩
      rw [runBatchesF]
      have hguard : ((((f :: fs).take (b' + 1)).map
          (fun p => (p.1, (process_frame p.1 p.2).outcome))).any
          (fun r => decide (r.2 = .blocked))) = false := by
        rw [List.any_eq_false]
        intro r hr
        rcases List.mem_map.mp hr with ⟨p, hp, rfl⟩
        simpa using hterm p (List.take_subset _ _ hp)
      simp only [hguard, Bool.false_eq_true, if_false]
      rw [ih ((f :: fs).drop (b' + 1))
        (by
          simp only [List.length_drop, List.length_cons]
          simp only [List.length_cons] at hlen
          omega)
        (fun p hp => hterm p (List.drop_subset _ _ hp))]
      rw [chunks_cons]
      simp only [List.flatMap_cons, List.take_succ_cons, List.drop_succ_cons,
        List.cons_append, List.nil_append]
      refine congrArg₂ _ rfl (congrArg₂ _ ?_ rfl)
      rw [← List.map_append, List.cons_append, List.take_append_drop]

/-- **C1.** If a frame's pipeline fails at stage `k`, no stage later in
the fixed order is invoked for that frame; and in the whole batch run
every frame — the failing one included — reaches exactly its own
pipeline's terminal state, so the failure never prevents any other
frame's pipeline from completing, nor does it hang the run. -/
theorem frame_failure_isolated (ncores bsize : Nat) (hb : 1 ≤ bsize)
    (frames : List (Stem × FrameEnv))
    (hterm : ∀ p ∈ frames, (process_frame p.1 p.2).outcome ≠ .blocked)
    (f : Stem) (e : FrameEnv) (hmem : (f, e) ∈ frames) (k : Stage)
    (hfail : (process_frame f e).outcome = .failed k) :
    (∀ s ∈ (process_frame f e).invoked, stageIdx s ≤ stageIdx k) ∧
    (runBatchesF frames.length ncores bsize frames).2.1 =
      frames.map (fun p => (p.1, (process_frame p.1 p.2).outcome)) ∧
    (runBatchesF frames.length ncores bsize frames).2.2 = false := by
  have h := runBatchesF_eq ncores bsize hb frames.length frames le_rfl hterm
  exact ⟨process_frame_halts f e hfail, by rw [h], by rw [h]⟩

/-- **C1 witness**: frame `1` fails at the split stage, frame `2`
succeeds; with batch size 1 both reach their own terminal states. -/
theorem frame_failure_isolated_witness :
    (∀ p ∈ ([(['1'], ⟨true, false, true, true, 3, true, true, true⟩),
             (['2'], ⟨true, true, true, true, 3, true, true, true⟩)] :
        List (Stem × FrameEnv)),
      (process_frame p.1 p.2).outcome ≠ .blocked) ∧
    (process_frame ['1'] ⟨true, false, true, true, 3, true, true, true⟩).outcome =
      .failed .split ∧
    ((∀ s ∈ (process_frame ['1']
        ⟨true, false, true, true, 3, true, true, true⟩).invoked,
      stageIdx s ≤ stageIdx .split) ∧
    (runBatchesF 2 4 1
      [(['1'], ⟨true, false, true, true, 3, true, true, true⟩),
       (['2'], ⟨true, true, true, true, 3, true, true, true⟩)]).2.1 =
      ([(['1'], ⟨true, false, true, true, 3, true, true, true⟩),
        (['2'], ⟨true, true, true, true, 3, true, true, true⟩)] :
          List (Stem × FrameEnv)).map
        (fun p => (p.1, (process_frame p.1 p.2).outcome)) ∧
    (runBatchesF 2 4 1
      [(['1'], ⟨true, false, true, true, 3, true, true, true⟩),
       (['2'], ⟨true, true, true, true, 3, true, true, true⟩)]).2.2 = false) :=
  ⟨by decide, by decide,
   frame_failure_isolated 4 1 (by decide)
     [(['1'], ⟨true, false, true, true, 3, true, true, true⟩),
      (['2'], ⟨true, true, true, true, 3, true, true, true⟩)]
     (by decide) ['1'] ⟨true, false, true, true, 3, true, true, true⟩
     (by decide) .split (by decide)⟩

theorem chunksF_flatten (bsize : Nat) :
    ∀ (fuel : Nat) (l : List α), l.length ≤ fuel → (chunksF fuel bsize l).flatten = l := by
  intro fuel
  induction fuel with
  | zero =>
    intro l hlen
    have : l = [] := List.eq_nil_of_length_eq_zero (by omega)
    subst this
    rfl
  | succ n ih =>
    intro l hlen
    match l with
    | [] => rfl
    | x :: xs =>
      simp only [chunksF, List.flatten_cons]
      rw [ih (xs.drop (bsize - 1))
        (by
          simp only [List.length_drop]
          simp only [List.length_cons] at hlen
          omega)]
      rw [List.cons_append, List.take_append_drop]

theorem chunksF_length (b' : Nat) :
    ∀ (fuel : Nat) (l : List α), l.length ≤ fuel → l ≠ [] →
      (chunksF fuel (b' + 1) l).length = (l.length + b') / (b' + 1) := by
  intro fuel
  induction fuel with
  | zero =>
    intro l hlen hne
    exact absurd (List.eq_nil_of_length_eq_zero (by omega)) hne
  | succ n ih =>
    intro l hlen hne
    match l with
    | [] => exact absurd rfl hne
    | x :: xs =>
      simp only [chunksF, Nat.add_sub_cancel, List.length_cons]
      simp only [List.length_cons] at hlen
      by_cases hdrop : xs.drop b' = []
      · have hxs : xs.length ≤ b' := List.drop_eq_nil_iff.mp hdrop
        rw [hdrop]
        have h0 : chunksF n (b' + 1) ([] : List α) = [] := by cases n <;> rfl
        rw [h0]
        simp only [List.length_cons, List.length_nil]
        exact (Nat.div_eq_of_lt_le (by omega) (by omega)).symm
      · have hxs : b' < xs.length := by
          by_contra hcon
          exact hdrop (List.drop_eq_nil_iff.mpr (by omega))
        rw [ih (xs.drop b') (by simp only [List.length_drop]; omega) hdrop]
        simp only [List.length_drop]
        have h1 : xs.length - b' + b' = xs.length := by omega
        have h2 : xs.length + 1 + b' = xs.length + (b' + 1) := by omega
        rw [h1, h2, Nat.add_div_right _ (by omega)]

theorem chunksF_mem_size (b' : Nat) :
    ∀ (fuel : Nat) (l : List α) (c : List α), l.length ≤ fuel →
      c ∈ chunksF fuel (b' + 1) l → c ≠ [] ∧ c.length ≤ b' + 1 := by
  intro fuel
  induction fuel with
  | zero =>
    intro l c hlen hmem
    have : l = [] := List.eq_nil_of_length_eq_zero (by omega)
    subst this
    simp [chunksF] at hmem
  | succ n ih =>
    intro l c hlen hmem
    match l with
    | [] => simp [chunksF] at hmem
    | x :: xs =>
      simp only [chunksF, Nat.add_sub_cancel, List.mem_cons] at hmem
      rcases hmem with rfl | hmem
      · refine ⟨by simp, ?_⟩
        simp only [List.length_cons, List.length_take]
        omega
      · refine ih (xs.drop b') c ?_ hmem
        simp only [List.length_drop]
        simp only [List.length_cons] at hlen
        omega

theorem chunksF_dropLast_size (b' : Nat) :
    ∀ (fuel : Nat) (l : List α) (c : List α), l.length ≤ fuel →
      c ∈ (chunksF fuel (b' + 1) l).dropLast → c.length = b' + 1 := by
  intro fuel
  induction fuel with
  | zero =>
    intro l c hlen hmem
    have : l = [] := List.eq_nil_of_length_eq_zero (by omega)
    subst this
    simp [chunksF] at hmem
  | succ n ih =>
    intro l c hlen hmem
    match l with
    | [] => simp [chunksF] at hmem
    | x :: xs =>
      simp only [chunksF, Nat.add_sub_cancel] at hmem
      simp only [List.length_cons] at hlen
      match hrest : chunksF n (b' + 1) (xs.drop b') with
      | [] => rw [hrest] at hmem; simp at hmem
      | r :: rs =>
        rw [hrest, List.dropLast_cons₂, List.mem_cons] at hmem
        rcases hmem with rfl | hmem
        · have hdrop : xs.drop b' ≠ [] := by
            intro hd
            rw [hd] at hrest
            have h0 : chunksF n (b' + 1) ([] : List α) = [] := by cases n <;> rfl
            rw [h0] at hrest
            exact absurd hrest (by simp)
          have hxs : b' < xs.length := by
            by_contra hcon
            exact hdrop (List.drop_eq_nil_iff.mpr (by omega))
          simp only [List.length_cons, List.length_take]
          omega
        · rw [← hrest] at hmem
          refine ih (xs.drop b') c ?_ hmem
          simp only [List.length_drop]
          omega

theorem dropLast_map (f : α → β) : ∀ (l : List α), (l.map f).dropLast = l.dropLast.map f := by
  intro l
  induction l with
  | nil => rfl
  | cons x xs ih =>
    match xs with
    | [] => rfl
    | y :: ys =>
      simp only [List.map_cons, List.dropLast_cons₂]
      simp only [List.map_cons] at ih
      rw [ih]

theorem chunks_flatten (bsize : Nat) (l : List α) : (chunks bsize l).flatten = l :=
  chunksF_flatten bsize l.length l le_rfl

theorem chunks_length_eq (b' : Nat) (l : List α) (hne : l ≠ []) :
    (chunks (b' + 1) l).length = (l.length + b') / (b' + 1) :=
  chunksF_length b' l.length l le_rfl hne

theorem chunks_mem_size (b' : Nat) (l c : List α) (hc : c ∈ chunks (b' + 1) l) :
    c ≠ [] ∧ c.length ≤ b' + 1 :=
  chunksF_mem_size b' l.length l c le_rfl hc

theorem chunks_dropLast_size (b' : Nat) (l c : List α)
    (hc : c ∈ (chunks (b' + 1) l).dropLast) : c.length = b' + 1 :=
  chunksF_dropLast_size b' l.length l c le_rfl hc

/-- The batches recorded by a per-chunk `[pool run, cleanup]` trace are
exactly the chunks' stem lists. -/
theorem eventBatches_flatMap (ncores : Nat) (cs : List (List (Stem × FrameEnv))) :
    eventBatches (cs.flatMap
      (fun c => [Event.runBatch (poolWidth ncores c.length) (c.map (·.1)),
                 Event.cleanup])) = cs.map (fun c => c.map (·.1)) := by
  induction cs with
  | nil => rfl
  | cons c cs ih =>
    simp only [List.flatMap_cons, List.cons_append, List.nil_append]
    unfold eventBatches at ih ⊢
    simp only [List.filterMap_cons]
    rw [ih]
    rfl

/-- A per-chunk `[pool run, cleanup]` trace holds exactly one cleanup
per chunk. -/
theorem cleanupCount_flatMap (ncores : Nat) (cs : List (List (Stem × FrameEnv))) :
    cleanupCount (cs.flatMap
      (fun c => [Event.runBatch (poolWidth ncores c.length) (c.map (·.1)),
                 Event.cleanup])) = cs.length := by
  induction cs with
  | nil => rfl
  | cons c cs ih =>
    simp only [List.flatMap_cons, List.cons_append, List.nil_append]
    unfold cleanupCount at ih ⊢
    simp only [List.countP_cons, ih, List.length_cons]
    simp

/-- **C3.** For every batch size `b ≥ 1` and non-empty selected frame
sequence whose pipelines all terminate, the scheduler partitions the
sequence into `⌈n/b⌉` consecutive batches — each of size `b` except
possibly the last, which is non-empty and no larger — processes them
strictly in order (their concatenation is the frame sequence itself),
and invokes the backend cleanup exactly once after each batch, for
`⌈n/b⌉` cleanup invocations in total. -/
theorem batch_partition (ncores bsize : Nat) (hb : 1 ≤ bsize)
    (frames : List (Stem × FrameEnv)) (hne : frames ≠ [])
    (hterm : ∀ p ∈ frames, (process_frame p.1 p.2).outcome ≠ .blocked)
    (E : List Event) (hE : E = (runBatchesF frames.length ncores bsize frames).1) :
    E = (chunks bsize frames).flatMap
        (fun c => [Event.runBatch (poolWidth ncores c.length) (c.map (·.1)),
                   Event.cleanup]) ∧
    (eventBatches E).length = (frames.length + bsize - 1) / bsize ∧
    (eventBatches E).flatten = frames.map (·.1) ∧
    (∀ c ∈ (eventBatches E).dropLast, c.length = bsize) ∧
    (∀ c ∈ eventBatches E, c ≠ [] ∧ c.length ≤ bsize) ∧
    cleanupCount E = (frames.length + bsize - 1) / bsize := by
  obtain ⟨b', rfl⟩ : ∃ b', bsize = b' + 1 := ⟨bsize - 1, by omega⟩
  have hrun := runBatchesF_eq ncores (b' + 1) hb frames.length frames le_rfl hterm
  have hE' : E = (chunks (b' + 1) frames).flatMap
      (fun c => [Event.runBatch (poolWidth ncores c.length) (c.map (·.1)),
                 Event.cleanup]) := by
    rw [hE, hrun]
  have hceil : (frames.length + (b' + 1) - 1) = frames.length + b' := by omega
  have hclen : (chunks (b' + 1) frames).length = (frames.length + b') / (b' + 1) :=
    chunks_length_eq b' frames hne
  have hbatches : eventBatches E = (chunks (b' + 1) frames).map (fun c => c.map (·.1)) := by
    rw [hE', eventBatches_flatMap]
  refine ⟨hE', ?_, ?_, ?_, ?_, ?_⟩
  · rw [hbatches, List.length_map, hclen, hceil]
  · rw [hbatches, ← List.map_flatten, chunks_flatten]
  · intro c hc
    rw [hbatches, dropLast_map] at hc
    rcases List.mem_map.mp hc with ⟨c', hc', rfl⟩
    rw [List.length_map]
    exact chunks_dropLast_size b' frames c' hc'
  · intro c hc
    rw [hbatches] at hc
    rcases List.mem_map.mp hc with ⟨c', hc', rfl⟩
    obtain ⟨hne', hle⟩ := chunks_mem_size b' frames c' hc'
    exact ⟨by simpa using hne', by simpa using hle⟩
  · rw [hE', cleanupCount_flatMap, hclen, hceil]

/-- **C3 witness**: 5 frames, batch size 2: batches `[2, 2, 1]` in
order, 3 cleanups. -/
theorem batch_partition_witness :
    (([(['1'], ⟨true, true, true, true, 3, true, true, true⟩),
       (['2'], ⟨true, true, true, true, 3, true, true, true⟩),
       (['3'], ⟨true, true, true, true, 3, true, true, true⟩),
       (['4'], ⟨true, true, true, true, 3, true, true, true⟩),
       (['5'], ⟨true, true, true, true, 3, true, true, true⟩)] :
        List (Stem × FrameEnv)) ≠ []) ∧
    ((eventBatches ((runBatchesF 5 4 2
        [(['1'], ⟨true, true, true, true, 3, true, true, true⟩),
         (['2'], ⟨true, true, true, true, 3, true, true, true⟩),
         (['3'], ⟨true, true, true, true, 3, true, true, true⟩),
         (['4'], ⟨true, true, true, true, 3, true, true, true⟩),
         (['5'], ⟨true, true, true, true, 3, true, true, true⟩)]).1)).length = (5 + 2 - 1) / 2 ∧
     cleanupCount ((runBatchesF 5 4 2
        [(['1'], ⟨true, true, true, true, 3, true, true, true⟩),
         (['2'], ⟨true, true, true, true, 3, true, true, true⟩),
         (['3'], ⟨true, true, true, true, 3, true, true, true⟩),
         (['4'], ⟨true, true, true, true, 3, true, true, true⟩),
         (['5'], ⟨true, true, true, true, 3, true, true, true⟩)]).1) = (5 + 2 - 1) / 2) :=
  ⟨by decide,
   (batch_partition 4 2 (by decide)
     [(['1'], ⟨true, true, true, true, 3, true, true, true⟩),
      (['2'], ⟨true, true, true, true, 3, true, true, true⟩),
      (['3'], ⟨true, true, true, true, 3, true, true, true⟩),
      (['4'], ⟨true, true, true, true, 3, true, true, true⟩),
      (['5'], ⟨true, true, true, true, 3, true, true, true⟩)]
     (by decide) (by decide) _ rfl).2.1,
   (batch_partition 4 2 (by decide)
     [(['1'], ⟨true, true, true, true, 3, true, true, true⟩),
      (['2'], ⟨true, true, true, true, 3, true, true, true⟩),
      (['3'], ⟨true, true, true, true, 3, true, true, true⟩),
      (['4'], ⟨true, true, true, true, 3, true, true, true⟩),
      (['5'], ⟨true, true, true, true, 3, true, true, true⟩)]
     (by decide) (by decide) _ rfl).2.2.2.2.2⟩

/-! ## Selection lemmas -/

/-- Python's floor-division remainder is zero exactly when the Euclidean
remainder is: both characterise divisibility. -/
theorem fmod_zero_iff (a step : Int) (hstep : step ≠ 0) :
    a - step * a.fdiv step = 0 ↔ a % step = 0 := by
  constructor
  · intro h
    exact Int.emod_eq_zero_of_dvd ⟨a.fdiv step, by omega⟩
  · intro h
    obtain ⟨k, rfl⟩ := Int.dvd_of_emod_eq_zero h
    rw [Int.mul_fdiv_cancel_left k hstep]
    ring

theorem frameKeep_eq (start stop step v : Int) (hstep : step ≠ 0) :
    frameKeep start stop step v =
      some (decide (start ≤ v ∧ v ≤ stop ∧ (v - start) % step = 0)) := by
  unfold frameKeep pyMod
  rw [if_neg hstep]
  by_cases hr : start ≤ v ∧ v ≤ stop
  · rw [if_pos hr]
    simp only [Option.map_some']
    congr 1
    by_cases hm : v - start - step * ((v - start).fdiv step) = 0
    · have hmod : (v - start) % step = 0 := (fmod_zero_iff _ _ hstep).mp hm
      rw [hm]
      simp [hr.1, hr.2, hmod]
    · have hmod : ¬(v - start) % step = 0 :=
        fun hh => hm ((fmod_zero_iff _ _ hstep).mpr hh)
      simp [hm, hmod]
  · rw [if_neg hr]
    congr 1
    rw [eq_comm, decide_eq_false_iff_not]
    tauto

theorem selectFrames_eq_filter (start stop step : Int) (hstep : step ≠ 0) :
    ∀ l : List (Stem × Int),
      selectFrames start stop step l =
        some (l.filter
          (fun p => decide (start ≤ p.2 ∧ p.2 ≤ stop ∧ (p.2 - start) % step = 0))) := by
  intro l
  induction l with
  | nil => rfl
  | cons p ps ih =>
    rw [selectFrames, frameKeep_eq _ _ _ _ hstep, List.filter_cons]
    by_cases hp : start ≤ p.2 ∧ p.2 ≤ stop ∧ (p.2 - start) % step = 0
    · rw [decide_eq_true hp, ih, if_pos rfl]
      rfl
    · rw [decide_eq_false hp, ih, if_neg (by simp)]

/-- **C2 (amended: nonzero step).** For every start, end, nonzero step
and every set of available integer-indexed input files, the frame
selection succeeds and returns exactly
`{i ∈ available : start ≤ i ≤ end ∧ (i − start) mod step = 0}`, sorted
ascending, with no duplicates. -/
theorem selection_formula (start stop step : Int) (hstep : step ≠ 0)
    (stems : List Stem) (pairs : List (Stem × Int))
    (hall : all_maes stems = some pairs)
    (hnd : (pairs.map (·.2)).Nodup) :
    ∃ sel, selectFrames start stop step pairs = some sel ∧
      (sel.map (·.2)).Sorted (· ≤ ·) ∧
      (sel.map (·.2)).Nodup ∧
      (∀ i : Int, i ∈ sel.map (·.2) ↔
        (i ∈ pairs.map (·.2) ∧ start ≤ i ∧ i ≤ stop ∧ (i - start) % step = 0)) := by
  have hsorted : pairs.Pairwise idxLe := by
    unfold all_maes at hall
    cases hdl : decorate stems with
    | none => rw [hdl] at hall; simp at hall
    | some dl =>
      rw [hdl] at hall
      simp only [Option.map_some', Option.some.injEq] at hall
      rw [← hall]
      exact List.sorted_insertionSort idxLe dl
  refine ⟨_, selectFrames_eq_filter start stop step hstep pairs, ?_, ?_, ?_⟩
  · exact List.Pairwise.map _ (fun a b hab => hab) (List.Pairwise.filter _ hsorted)
  · exact List.Nodup.sublist (List.Sublist.map _ (List.filter_sublist _)) hnd
  · intro i
    constructor
    · intro hi
      rcases List.mem_map.mp hi with ⟨p, hp, rfl⟩
      rcases List.mem_filter.mp hp with ⟨hmem, hcond⟩
      simp only [decide_eq_true_eq] at hcond
      exact ⟨List.mem_map_of_mem _ hmem, hcond⟩
    · rintro ⟨hmem, hcond⟩
      rcases List.mem_map.mp hmem with ⟨p, hp, rfl⟩
      exact List.mem_map_of_mem _ (List.mem_filter.mpr ⟨hp, by simpa using hcond⟩)

/-- **C2 counterexample.** At `start=1, end=5, step=0` with available
indices `{1,2,3,5}`, the selection comprehension raises an uncaught
`ZeroDivisionError` (index 1 is inside the range, so `(1-1) % 0` is
evaluated) and the program returns no selection at all, whereas the
claim's formula — read with `(i − start) mod 0 = 0` iff `i = start` —
demands the selection `[1]`. -/
theorem selection_stepzero_cex :
    (all_maes [['1'], ['2'], ['3'], ['5']]).bind (selectFrames 1 5 0) = none ∧
    specSelection 1 5 0 [1, 2, 3, 5] = [1] := by
  constructor
  · decide
  · decide

/-- **C2 witness** for the amended theorem: the specification's own
scenario, `{1.mae, 2.mae, 3.mae, 5.mae}` with `start=1, end=5, step=2`. -/
theorem selection_formula_witness :
    (2 : Int) ≠ 0 ∧
    all_maes [['1'], ['2'], ['3'], ['5']] =
      some [(['1'], 1), (['2'], 2), (['3'], 3), (['5'], 5)] ∧
    (∃ sel, selectFrames 1 5 2 [(['1'], 1), (['2'], 2), (['3'], 3), (['5'], 5)] =
        some sel ∧
      (sel.map (·.2)).Sorted (· ≤ ·) ∧
      (sel.map (·.2)).Nodup ∧
      (∀ i : Int, i ∈ sel.map (·.2) ↔
        (i ∈ ([(['1'], 1), (['2'], 2), (['3'], 3), (['5'], 5)] :
            List (Stem × Int)).map (·.2) ∧
          1 ≤ i ∧ i ≤ 5 ∧ (i - 1) % 2 = 0))) :=
  ⟨by decide, by decide,
   selection_formula 1 5 2 (by decide) [['1'], ['2'], ['3'], ['5']]
     [(['1'], 1), (['2'], 2), (['3'], 3), (['5'], 5)] (by decide) (by decide)⟩

/-! ## Artifact-waiter lemmas -/

/-- In a `Pairwise R` list, whatever `find?` returns is `R`-before every
other element satisfying the predicate. -/
theorem find_pairwise {R : FileEntry → FileEntry → Prop} {p : FileEntry → Bool}
    {z : FileEntry} :
    ∀ {l : List FileEntry}, l.Pairwise R → l.find? p = some z →
      ∀ x ∈ l, p x = true → x = z ∨ R z x := by
  intro l
  induction l with
  | nil => intro _ hfind; simp at hfind
  | cons a as ih =>
    intro hpw hfind x hx hpx
    rcases List.pairwise_cons.mp hpw with ⟨hra, hpw'⟩
    cases hpa : p a with
    | true =>
      rw [List.find?_cons_of_pos _ hpa, Option.some.injEq] at hfind
      subst hfind
      rcases List.mem_cons.mp hx with rfl | hxs
      · exact Or.inl rfl
      · exact Or.inr (hra x hxs)
    | false =>
      rw [List.find?_cons_of_neg _ (by simp [hpa])] at hfind
      rcases List.mem_cons.mp hx with rfl | hxs
      · rw [hpa] at hpx; exact absurd hpx (by simp)
      · exact ih hpw' hfind x hxs hpx

theorem pollOnce_some {files : List FileEntry} {z : FileEntry}
    (h : pollOnce files = some z) :
    z ∈ files ∧ zipCandidate z = true ∧
      ∀ f ∈ files, zipCandidate f = true → f.mtime ≤ z.mtime := by
  unfold pollOnce at h
  have hmemz : z ∈ List.insertionSort newerFirst
      (files.filter (fun f => globZip f.name)) := List.mem_of_find?_eq_some h
  have hmemz' : z ∈ files.filter (fun f => globZip f.name) :=
    (List.mem_insertionSort newerFirst).mp hmemz
  rcases List.mem_filter.mp hmemz' with ⟨hzf, hzglob⟩
  have hzcon : containsGridgen z.name = true := by
    have := List.find?_some h
    simpa using this
  have hpw : (List.insertionSort newerFirst
      (files.filter (fun f => globZip f.name))).Pairwise newerFirst :=
    List.sorted_insertionSort newerFirst _
  refine ⟨hzf, by simp [zipCandidate, hzglob, hzcon], ?_⟩
  intro f hf hcand
  have hcand' : globZip f.name = true ∧ containsGridgen f.name = true := by
    simpa [zipCandidate] using hcand
  rcases hcand' with ⟨hfglob, hfcon⟩
  have hfmem : f ∈ List.insertionSort newerFirst
      (files.filter (fun g => globZip g.name)) :=
    (List.mem_insertionSort newerFirst).mpr (List.mem_filter.mpr ⟨hf, hfglob⟩)
  rcases find_pairwise hpw h f hfmem hfcon with rfl | hle
  · exact le_rfl
  · exact hle

theorem pollOnce_isSome {files : List FileEntry}
    (h : ∃ f ∈ files, zipCandidate f = true) : ∃ z, pollOnce files = some z := by
  rcases h with ⟨f, hf, hcand⟩
  have hcand' : globZip f.name = true ∧ containsGridgen f.name = true := by
    simpa [zipCandidate] using hcand
  rcases hcand' with ⟨hfglob, hfcon⟩
  have : ((List.insertionSort newerFirst
      (files.filter (fun g => globZip g.name))).find?
        (fun g => containsGridgen g.name)).isSome := by
    rw [List.find?_isSome]
    exact ⟨f, (List.mem_insertionSort newerFirst).mpr
      (List.mem_filter.mpr ⟨hf, hfglob⟩), hfcon⟩
  rcases Option.isSome_iff_exists.mp this with ⟨z, hz⟩
  exact ⟨z, hz⟩

theorem pollOnce_none {files : List FileEntry}
    (h : ∀ f ∈ files, zipCandidate f = false) : pollOnce files = none := by
  unfold pollOnce
  rw [List.find?_eq_none]
  intro x hx
  rcases List.mem_filter.mp ((List.mem_insertionSort newerFirst).mp hx) with ⟨hxf, hxglob⟩
  have := h x hxf
  unfold zipCandidate at this
  rw [hxglob] at this
  simpa using this

/-- **C6.** For every working-directory state holding at least one
candidate (a globbed `*.zip` whose name contains `"gridgen"`), the
artifact waiter returns within one poll a candidate of
maximal modification time; and while no candidate matches it polls
forever — no finite number of iterations makes it return. -/
theorem artifact_waiter (files : List FileEntry) :
    ((∃ f ∈ files, zipCandidate f = true) →
      ∀ fuel, 1 ≤ fuel → ∃ z, waitLoop fuel files = some z ∧ z ∈ files ∧
        zipCandidate z = true ∧
        ∀ f ∈ files, zipCandidate f = true → f.mtime ≤ z.mtime) ∧
    ((∀ f ∈ files, zipCandidate f = false) → ∀ fuel, waitLoop fuel files = none) := by
  constructor
  · intro hex fuel hfuel
    obtain ⟨z, hz⟩ := pollOnce_isSome hex
    obtain ⟨hmem, hcand, hmax⟩ := pollOnce_some hz
    obtain ⟨m, rfl⟩ : ∃ m, fuel = m + 1 := ⟨fuel - 1, by omega⟩
    refine ⟨z, ?_, hmem, hcand, hmax⟩
    unfold waitLoop
    rw [hz]
  · intro hnone fuel
    induction fuel with
    | zero => rfl
    | succ m ih =>
      unfold waitLoop
      rw [pollOnce_none hnone, ih]

/-- **C6 witness**: a directory holding two gridgen zips and a newer
non-matching zip returns the newest gridgen zip on the first poll; a
directory with no matching candidate never returns. -/
theorem artifact_waiter_witness :
    (∃ f ∈ [(⟨"a-gridgen.zip".toList, 5⟩ : FileEntry),
            ⟨"b-gridgen.zip".toList, 9⟩, ⟨"c.zip".toList, 99⟩],
      zipCandidate f = true) ∧
    (∀ f ∈ [(⟨"old.zip".toList, 3⟩ : FileEntry)], zipCandidate f = false) ∧
    (∃ z, waitLoop 1 [(⟨"a-gridgen.zip".toList, 5⟩ : FileEntry),
            ⟨"b-gridgen.zip".toList, 9⟩, ⟨"c.zip".toList, 99⟩] = some z ∧
      z ∈ [(⟨"a-gridgen.zip".toList, 5⟩ : FileEntry),
            ⟨"b-gridgen.zip".toList, 9⟩, ⟨"c.zip".toList, 99⟩] ∧
      zipCandidate z = true ∧
      ∀ f ∈ [(⟨"a-gridgen.zip".toList, 5⟩ : FileEntry),
            ⟨"b-gridgen.zip".toList, 9⟩, ⟨"c.zip".toList, 99⟩],
        zipCandidate f = true → f.mtime ≤ z.mtime) ∧
    waitLoop 4 [(⟨"old.zip".toList, 3⟩ : FileEntry)] = none :=
  ⟨by decide, by decide,
   (artifact_waiter [⟨"a-gridgen.zip".toList, 5⟩,
      ⟨"b-gridgen.zip".toList, 9⟩, ⟨"c.zip".toList, 99⟩]).1 (by decide) 1 (by decide),
   (artifact_waiter [⟨"old.zip".toList, 3⟩]).2 (by decide) 4⟩

/-! ## Path-namespacing lemmas -/

/-- Two all-digit blocks followed by a non-digit each can only
concatenate to the same string if the blocks are equal. -/
theorem digit_block_eq :
    ∀ (a b : List Char) {c d : Char} {u v : List Char},
      (∀ x ∈ a, x.isDigit = true) → (∀ x ∈ b, x.isDigit = true) →
      c.isDigit = false → d.isDigit = false →
      a ++ c :: u = b ++ d :: v → a = b := by
  intro a
  induction a with
  | nil =>
    intro b c d u v ha hb hc hd heq
    cases b with
    | nil => rfl
    | cons y ys =>
      simp only [List.nil_append, List.cons_append, List.cons.injEq] at heq
      have hy := hb y (List.mem_cons_self y ys)
      rw [← heq.1] at hy
      rw [hy] at hc
      exact absurd hc (by simp)
  | cons x xs ih =>
    intro b c d u v ha hb hc hd heq
    cases b with
    | nil =>
      simp only [List.cons_append, List.nil_append, List.cons.injEq] at heq
      have hx := ha x (List.mem_cons_self x xs)
      rw [heq.1] at hx
      rw [hx] at hd
      exact absurd hd (by simp)
    | cons y ys =>
      simp only [List.cons_append, List.cons.injEq] at heq
      rw [heq.1]
      exact congrArg (y :: ·)
        (ih ys (fun g hg => ha g (List.mem_cons_of_mem _ hg))
          (fun g hg => hb g (List.mem_cons_of_mem _ hg)) hc hd heq.2)

/-- Every per-frame filename suffix starts with a non-digit character
(`.`, `_` or `-`). -/
theorem frameSuffixes_head :
    ∀ suf ∈ frameSuffixes, suf.head?.map Char.isDigit = some false := by decide

/-- **C7 counterexample.** The artifact waiter of every frame matches
the same frame-independent pattern (`*.zip` containing `"gridgen"`), so
the paths two distinct frames read/match/write in the shared working
directory are not disjoint: `job-gridgen.zip` is matched by frame `1`
and frame `2` alike. -/
theorem frame_paths_overlap_cex :
    frameTouches ['1'] "job-gridgen.zip".toList = true ∧
    frameTouches ['2'] "job-gridgen.zip".toList = true ∧
    (['1'] : Stem) ≠ ['2'] := by
  refine ⟨by decide, by decide, by decide⟩

/-- **C7 (amended).** The filenames a frame *writes* are all namespaced
by its own (digit-string) integer identity, and the write sets of two
distinct frames are disjoint; only the waiter's frame-independent
`*gridgen*.zip` match escapes the namespacing. -/
theorem frame_writes_disjoint (s t : Stem)
    (hs : ∀ c ∈ s, c.isDigit = true) (ht : ∀ c ∈ t, c.isDigit = true)
    (hne : s ≠ t) : ∀ p ∈ frameWrites s, p ∉ frameWrites t := by
  intro p hp hpt
  rcases List.mem_map.mp hp with ⟨u, hu, rfl⟩
  rcases List.mem_map.mp hpt with ⟨v, hv, heq⟩
  have hu' := frameSuffixes_head u hu
  have hv' := frameSuffixes_head v hv
  cases u with
  | nil => simp at hu'
  | cons c u₂ =>
    cases v with
    | nil => simp at hv'
    | cons d v₂ =>
      simp only [List.head?_cons, Option.map_some', Option.some.injEq] at hu' hv'
      exact hne (digit_block_eq s t hs ht hu' hv' heq.symm)

/-- **C7 witness** for the amended theorem: frames `1` and `2`;
`1.mae` belongs to frame 1's write set and not to frame 2's. -/
theorem frame_writes_disjoint_witness :
    (∀ c ∈ (['1'] : Stem), c.isDigit = true) ∧
    (∀ c ∈ (['2'] : Stem), c.isDigit = true) ∧
    (['1'] : Stem) ≠ ['2'] ∧
    "1.mae".toList ∈ frameWrites ['1'] ∧
    "1.mae".toList ∉ frameWrites ['2'] :=
  ⟨by decide, by decide, by decide, by decide,
   frame_writes_disjoint ['1'] ['2'] (by decide) (by decide) (by decide)
     "1.mae".toList (by decide)⟩

/-! ## Collection lemmas -/

theorem getLast?_of_suffix {t l : List Char} (h : t <:+ l) {c : Char}
    (hc : t.getLast? = some c) : l.getLast? = some c := by
  rcases h with ⟨w, rfl⟩
  rw [List.getLast?_append, hc]
  rfl

/-- A filename that is a stem followed by a suffix whose last character
is not `o` is never a `.phypo` file. -/
theorem isPhypo_append_false (st : Stem) (suf : List Char) (c : Char)
    (hlast : suf.getLast? = some c) (hc : c ≠ 'o') : isPhypo (st ++ suf) = false := by
  unfold isPhypo
  rw [decide_eq_false_iff_not]
  intro hsuf
  have h1 : (st ++ suf).getLast? = some 'o' := getLast?_of_suffix hsuf (by decide)
  have h2 : (st ++ suf).getLast? = some c := by rw [List.getLast?_append, hlast]; rfl
  rw [h1] at h2
  injection h2 with h2
  exact hc h2.symm

theorem isPhypo_phypoFile (st : Stem) : isPhypo (phypoFile st) = true := by
  unfold isPhypo phypoFile
  rw [decide_eq_true_eq]
  exact List.IsSuffix.trans (by decide) (List.suffix_append st _)

/-- The `.phypo` files a frame's pipeline leaves in the working
directory: exactly its one terminal artifact when all stages succeeded,
nothing otherwise. -/
theorem files_filter_phypo (st : Stem) (e : FrameEnv) :
    (process_frame st e).files.filter isPhypo =
      (if (process_frame st e).outcome = .done then [phypoFile st] else []) := by
  have hmae : isPhypo (maeFile st) = false :=
    isPhypo_append_false st _ 'e' (by decide) (by decide)
  have hprep : isPhypo (preparedFile st) = false :=
    isPhypo_append_false st _ 'e' (by decide) (by decide)
  have hlig : isPhypo (ligFile st) = false :=
    isPhypo_append_false st _ 'e' (by decide) (by decide)
  have hrec : isPhypo (recFile st) = false :=
    isPhypo_append_false st _ 'e' (by decide) (by decide)
  have hcsv : isPhypo (csvFile st) = false :=
    isPhypo_append_false st _ 'v' (by decide) (by decide)
  have hzip : isPhypo (gridZipFile st) = false :=
    isPhypo_append_false st _ 'p' (by decide) (by decide)
  have hphy : isPhypo (phypoFile st) = true := isPhypo_phypoFile st
  rcases process_frame_spec st e with hc | hc | hc | hc | hc | hc | hc <;>
    rw [hc] <;>
    simp [List.filter, hmae, hprep, hlig, hrec, hcsv, hzip, hphy]

/-- The `.phypo` files of a whole run's working directory are exactly
one artifact per fully successful frame, in frame order. -/
theorem flatMap_filter_phypo (frames : List (Stem × FrameEnv)) :
    (frames.flatMap (fun p => (process_frame p.1 p.2).files)).filter isPhypo =
      (frames.filter (fun p => decide ((process_frame p.1 p.2).outcome = .done))).map
        (fun p => phypoFile p.1) := by
  induction frames with
  | nil => rfl
  | cons f fs ih =>
    rw [List.flatMap_cons, List.filter_append, ih, files_filter_phypo, List.filter_cons]
    by_cases hd : (process_frame f.1 f.2).outcome = .done
    · rw [if_pos hd, decide_eq_true hd, if_pos rfl]
      rfl
    · rw [if_neg hd, decide_eq_false hd, if_neg (by simp)]
      rfl

/-- `phypoFile` is injective in the stem. -/
theorem phypoFile_injective : Function.Injective phypoFile := by
  intro s t h
  exact List.append_cancel_right h

/-- **C8.** After a full run — every selected frame's pipeline reaches a
terminal state, `m` frames complete all stages successfully and the rest
fail at some stage — the hypothesis collection directory contains
exactly `m` terminal artifacts, one per succeeding frame identity;
failed frames contribute nothing. -/
theorem collection_exact (start stop step : Int) (ncores bsize : Nat) (hb : 1 ≤ bsize)
    (stems : List Stem) (env : Stem → FrameEnv)
    (pairs sel : List (Stem × Int))
    (hall : all_maes stems = some pairs)
    (hsel : selectFrames start stop step pairs = some sel)
    (hne : sel ≠ [])
    (hnd : (sel.map (·.1)).Nodup)
    (hterm : ∀ p ∈ sel, (process_frame p.1 (env p.1)).outcome ≠ .blocked) :
    (runProgram true start stop step ncores bsize stems env).exit = .completed ∧
    (runProgram true start stop step ncores bsize stems env).collected =
      ((sel.map (fun p => (p.1, env p.1))).filter
        (fun p => decide ((process_frame p.1 p.2).outcome = .done))).map
        (fun p => phypoFile p.1) ∧
    (runProgram true start stop step ncores bsize stems env).collected.length =
      ((sel.map (fun p => (p.1, env p.1))).filter
        (fun p => decide ((process_frame p.1 p.2).outcome = .done))).length := by
  have hterm' : ∀ p ∈ sel.map (fun p => (p.1, env p.1)),
      (process_frame p.1 p.2).outcome ≠ .blocked := by
    intro p hp
    rcases List.mem_map.mp hp with ⟨q, hq, rfl⟩
    exact hterm q hq
  have hrun := runBatchesF_eq ncores bsize hb
    (sel.map (fun p => (p.1, env p.1))).length (sel.map (fun p => (p.1, env p.1)))
    le_rfl hterm'
  have hcoll : collectHypos
      ((sel.map (fun p => (p.1, env p.1))).flatMap
        (fun p => (process_frame p.1 p.2).files)) [] =
      ((sel.map (fun p => (p.1, env p.1))).filter
        (fun p => decide ((process_frame p.1 p.2).outcome = .done))).map
        (fun p => phypoFile p.1) := by
    unfold collectHypos
    rw [flatMap_filter_phypo]
    have hnds : (((sel.map (fun p => (p.1, env p.1))).filter
        (fun p => decide ((process_frame p.1 p.2).outcome = .done))).map
          (fun p => phypoFile p.1)).Nodup := by
      have h1 : List.Sublist
          (((sel.map (fun p => (p.1, env p.1))).filter
            (fun p => decide ((process_frame p.1 p.2).outcome = .done))).map (·.1))
          ((sel.map (fun p => (p.1, env p.1))).map (·.1)) :=
        List.Sublist.map _ (List.filter_sublist _)
      have h2 : ((sel.map (fun p => (p.1, env p.1))).map (·.1)).Nodup := by
        rw [List.map_map]
        exact hnd
      have h3 := List.Nodup.sublist h1 h2
      have h4 : (((sel.map (fun p => (p.1, env p.1))).filter
          (fun p => decide ((process_frame p.1 p.2).outcome = .done))).map
            (·.1)).map phypoFile =
          ((sel.map (fun p => (p.1, env p.1))).filter
            (fun p => decide ((process_frame p.1 p.2).outcome = .done))).map
            (fun p => phypoFile p.1) := by
        rw [List.map_map]
        rfl
      rw [← h4]
      exact List.Nodup.map phypoFile_injective h3
    rw [foldl_copyInto_of_disjoint _ [] hnds (fun x _ => List.not_mem_nil x)]
    rfl
  obtain ⟨s0, sel', rfl⟩ : ∃ s0 sel', sel = s0 :: sel' := by
    cases sel with
    | nil => exact absurd rfl hne
    | cons a l => exact ⟨a, l, rfl⟩
  have hb0 : ¬bsize = 0 := by omega
  unfold runProgram
  rw [hall]
  simp only []
  rw [hsel]
  simp only [hb0, Bool.not_true, Bool.false_eq_true, if_false, hrun]
  exact ⟨trivial, hcoll, by rw [hcoll, List.length_map]⟩

/-- **C8 witness**: two selected frames, frame `1` fully succeeds, frame
`2` fails at the split stage; the collection holds exactly frame `1`'s
artifact. -/
theorem collection_exact_witness :
    ((([(['1'], 1), (['2'], 2)] : List (Stem × Int)) ≠ []) ∧
      (([(['1'], 1), (['2'], 2)] : List (Stem × Int)).map (·.1)).Nodup) ∧
    (runProgram true 1 2 1 4 2 [['1'], ['2']]
      (fun st => if st = ['1'] then ⟨true, true, true, true, 3, true, true, true⟩
        else ⟨true, false, true, true, 3, true, true, true⟩)).exit = .completed ∧
    (runProgram true 1 2 1 4 2 [['1'], ['2']]
      (fun st => if st = ['1'] then ⟨true, true, true, true, 3, true, true, true⟩
        else ⟨true, false, true, true, 3, true, true, true⟩)).collected =
      ((([(['1'], 1), (['2'], 2)] : List (Stem × Int)).map
        (fun p => (p.1, (fun st => if st = ['1']
          then (⟨true, true, true, true, 3, true, true, true⟩ : FrameEnv)
          else ⟨true, false, true, true, 3, true, true, true⟩) p.1))).filter
        (fun p => decide ((process_frame p.1 p.2).outcome = .done))).map
        (fun p => phypoFile p.1) :=
  ⟨⟨by decide, by decide⟩,
   (collection_exact 1 2 1 4 2 (by decide) [['1'], ['2']]
     (fun st => if st = ['1'] then ⟨true, true, true, true, 3, true, true, true⟩
       else ⟨true, false, true, true, 3, true, true, true⟩)
     [(['1'], 1), (['2'], 2)] [(['1'], 1), (['2'], 2)]
     (by decide) (by decide) (by decide) (by decide) (by decide)).1,
   (collection_exact 1 2 1 4 2 (by decide) [['1'], ['2']]
     (fun st => if st = ['1'] then ⟨true, true, true, true, 3, true, true, true⟩
       else ⟨true, false, true, true, 3, true, true, true⟩)
     [(['1'], 1), (['2'], 2)] [(['1'], 1), (['2'], 2)]
     (by decide) (by decide) (by decide) (by decide) (by decide)).2.1⟩

end DynEph
